import Mathlib

/-!
Verification of the ndd-tools method-set generator.

This file gives a shallow embedding of the core of the
`netw-device-driver/ndd-tools` repository — the structural shape matcher
(`internal/match`), the method synthesis engine (`internal/method`) and the
driver command (`cmd/nddgen/genmethodsets.go`) — and proves the behavioural
properties stated in the design document about them.

Conventions of the embedding:
* A `types.Object` (a loaded Go type declaration with resolved struct
  fields, attached comments and a computed method set) becomes the record
  `Object` below: its name, its direct struct fields (each with one level of
  nested-struct resolution, as the design's Declaration Source guarantees),
  and the method set of the pointer to the type, each method carrying the
  filename of its defining position (the `token.FileSet` position resolution
  is folded into this field).
* Pure Go functions become Lean functions; variadic parameters become lists;
  Go maps built from literals become association lists.
* The `internal/fields` and `internal/comments` packages are not part of the
  provided sources; their definitions are modelled from the design document
  and are marked `Modelled from the spec:` in their doc comments.
-/

set_option maxRecDepth 4096

namespace NddTools

/-- A field of a struct-shaped declaration: its name, the fully qualified
name of its declared type (of the element type, for a slice), whether it is
embedded, whether it is a slice, and — when the (element) type resolves to a
struct — that struct's own fields (exactly one level of nested resolution). -/
inductive Field where
  | mk : String → String → Bool → Bool → Option (List Field) → Field

/-- The field's name. -/
def Field.name : Field → String
  | .mk n _ _ _ _ => n

/-- The fully qualified name the field's (element) type resolves to. -/
def Field.typeName : Field → String
  | .mk _ t _ _ _ => t

/-- Whether the field is embedded. -/
def Field.embedded : Field → Bool
  | .mk _ _ e _ _ => e

/-- Whether the field's declared type is a slice. -/
def Field.isSlice : Field → Bool
  | .mk _ _ _ s _ => s

/-- The struct fields of the field's (element) type, when it resolves to a
struct shape; `none` for primitive or opaque external types. -/
def Field.nested : Field → Option (List Field)
  | .mk _ _ _ _ fs => fs

/-- A method in the method set of (the pointer to) a declared type, with the
filename of its defining position as resolved through the `token.FileSet`. -/
structure MethodInfo where
  name : String
  filename : String

/-- A loaded type declaration (`types.Object`) as consumed by the core. -/
structure Object where
  name : String
  fields : List Field
  methods : List MethodInfo

namespace fields

/-- Modelled from the spec: the matcher type of the absent `internal/fields`
package — a pure predicate over a single struct field. -/
def Matcher : Type := Field → Bool

/-- Modelled from the spec: conjunction of two field matchers. -/
def Matcher.and (m₁ m₂ : Matcher) : Matcher := fun f => m₁ f && m₂ f

/-- Conventional field name `Spec`. -/
def NameSpec : String := "Spec"

/-- Conventional field name `Status`. -/
def NameStatus : String := "Status"

/-- Conventional field name `Items`. -/
def NameItems : String := "Items"

/-- Qualified name of the framework TypeMeta base type. -/
def TypeMetaType : String := "k8s.io/apimachinery/pkg/apis/meta/v1.TypeMeta"

/-- Qualified name of the framework ObjectMeta base type. -/
def ObjectMetaType : String := "k8s.io/apimachinery/pkg/apis/meta/v1.ObjectMeta"

/-- Qualified name of the framework resource-spec base type. -/
def ResourceSpecType : String :=
  "github.com/netw-device-driver/ndd-runtime/apis/common/v1.ResourceSpec"

/-- Qualified name of the framework resource-status base type. -/
def ResourceStatusType : String :=
  "github.com/netw-device-driver/ndd-runtime/apis/common/v1.ResourceStatus"

/-- Qualified name of the framework target-config-status base type. -/
def TargetConfigStatusType : String :=
  "github.com/netw-device-driver/ndd-runtime/apis/common/v1.TargetConfigStatus"

/-- Qualified name of the framework target-config-usage base type. -/
def TargetConfigUsageType : String :=
  "github.com/netw-device-driver/ndd-runtime/apis/common/v1.TargetConfigUsage"

/-- Modelled from the spec: `IsEmbedded` is true iff the field's embedded
flag is set. -/
def IsEmbedded : Matcher := fun f => f.embedded

/-- Modelled from the spec: `NamedField(name)` is true iff the field's name
equals the given conventional name. -/
def Named (n : String) : Matcher := fun f => f.name == n

/-- Modelled from the spec: `TypeIs(qualifiedName)` is true iff the field's
(element's) type reference resolves to exactly the given fully qualified
type name. -/
def TypeIs (q : String) : Matcher := fun f => f.typeName == q

/-- Modelled from the spec: `IsSlice` is true iff the field's declared type
is a slice of some element type. -/
def IsSlice : Matcher := fun f => f.isSlice

/-- Modelled from the spec: recognizes the framework TypeMeta base type. -/
def IsTypeMeta : Matcher := TypeIs TypeMetaType

/-- Modelled from the spec: recognizes the framework ObjectMeta base type. -/
def IsObjectMeta : Matcher := TypeIs ObjectMetaType

/-- Modelled from the spec: recognizes the conventional `Spec` field. -/
def IsSpec : Matcher := Named NameSpec

/-- Modelled from the spec: recognizes the conventional `Status` field. -/
def IsStatus : Matcher := Named NameStatus

/-- Modelled from the spec: recognizes the conventional `Items` field. -/
def IsItems : Matcher := Named NameItems

/-- Modelled from the spec: recognizes the framework resource-spec type. -/
def IsResourceSpec : Matcher := TypeIs ResourceSpecType

/-- Modelled from the spec: recognizes the framework resource-status type. -/
def IsResourceStatus : Matcher := TypeIs ResourceStatusType

/-- Modelled from the spec: recognizes the framework target-config-status
type. -/
def IsTargetConfigStatus : Matcher := TypeIs TargetConfigStatusType

/-- Modelled from the spec: recognizes the framework target-config-usage
type. -/
def IsTargetConfigUsage : Matcher := TypeIs TargetConfigUsageType

/-- The nested fields a field exposes for one level of structural descent
(empty when its type does not resolve to a struct shape). -/
def nestedFields (f : Field) : List Field := f.nested.getD []

/-- Modelled from the spec: `HasFieldThat(...predicates)` is true iff, among
the field's nested fields (one level into a struct-typed field), at least
one field satisfies the conjunction of the given predicates; it is false
(never panics) when the field's type does not resolve to a struct shape. -/
def HasFieldThat (ms : List Matcher) : Matcher := fun f =>
  (nestedFields f).any (fun g => ms.all (fun m => m g))

/-- Modelled from the spec: `Has(declaration, ...fieldPredicates)` is true
iff, for every supplied field predicate, at least one of the declaration's
direct fields satisfies it. -/
def Has (o : Object) (ms : List Matcher) : Bool :=
  ms.all (fun m => o.fields.any m)

end fields

namespace Match

/-- `match.Object`: an object matcher is a function that returns true if the
supplied object matches (from `internal/match/match.go`). -/
def Object' : Type := Object → Bool

/-- `match.Managed` (from `internal/match/match.go`): true if the supplied
object is an ndd managed resource. -/
def Managed : Object' := fun o =>
  fields.Has o
    [fields.IsTypeMeta.and fields.IsEmbedded,
     fields.IsObjectMeta.and fields.IsEmbedded,
     fields.IsSpec.and (fields.HasFieldThat
       [fields.IsResourceSpec.and fields.IsEmbedded]),
     fields.IsStatus.and (fields.HasFieldThat
       [fields.IsResourceStatus.and fields.IsEmbedded])]

/-- `match.ManagedList` (from `internal/match/match.go`): true if the
supplied object is a list of ndd managed resources. -/
def ManagedList : Object' := fun o =>
  fields.Has o
    [fields.IsTypeMeta.and fields.IsEmbedded,
     (fields.IsItems.and fields.IsSlice).and (fields.HasFieldThat
       [fields.IsTypeMeta.and fields.IsEmbedded,
        fields.IsObjectMeta.and fields.IsEmbedded,
        fields.IsSpec.and (fields.HasFieldThat
          [fields.IsResourceSpec.and fields.IsEmbedded]),
        fields.IsStatus.and (fields.HasFieldThat
          [fields.IsResourceStatus.and fields.IsEmbedded])])]

/-- `match.TargetConfig` (from `internal/match/match.go`). -/
def TargetConfig : Object' := fun o =>
  fields.Has o
    [fields.IsTypeMeta.and fields.IsEmbedded,
     fields.IsObjectMeta.and fields.IsEmbedded,
     fields.IsSpec,
     fields.IsStatus.and (fields.HasFieldThat
       [fields.IsTargetConfigStatus.and fields.IsEmbedded])]

/-- `match.TargetConfigUsage` (from `internal/match/match.go`). -/
def TargetConfigUsage : Object' := fun o =>
  fields.Has o
    [fields.IsTypeMeta.and fields.IsEmbedded,
     fields.IsObjectMeta.and fields.IsEmbedded,
     fields.IsTargetConfigUsage.and fields.IsEmbedded]

/-- `match.TargetConfigUsageList` (from `internal/match/match.go`). -/
def TargetConfigUsageList : Object' := fun o =>
  fields.Has o
    [fields.IsTypeMeta.and fields.IsEmbedded,
     (fields.IsItems.and fields.IsSlice).and (fields.HasFieldThat
       [fields.IsTypeMeta.and fields.IsEmbedded,
        fields.IsObjectMeta.and fields.IsEmbedded,
        fields.IsTargetConfigUsage.and fields.IsEmbedded])]

/-- `match.AllOf` (from `internal/match/match.go`): true if all of the
supplied object matchers return true, stopping at the first that fails. -/
def AllOf : List Object' → Object'
  | [], _ => true
  | m :: rest, o => if m o then AllOf rest o else false

/-- `match.AnyOf` (from `internal/match/match.go`): true if any of the
supplied object matchers returns true, stopping at the first that holds. -/
def AnyOf : List Object' → Object'
  | [], _ => false
  | m :: rest, o => if m o then true else AnyOf rest o

end Match

namespace comments

/-- Splits a character list at every occurrence of the separator. -/
def splitOnChar (sep : Char) : List Char → List (List Char)
  | [] => [[]]
  | c :: cs =>
    if c == sep then [] :: splitOnChar sep cs
    else
      match splitOnChar sep cs with
      | [] => [[c]]
      | r :: rs => (c :: r) :: rs

/-- Splits a marker line at its first `=` into the marker path and the
value; `none` when the line holds no `=`. -/
def breakAtEq : List Char → Option (List Char × List Char)
  | [] => none
  | c :: cs =>
    if c == '=' then some ([], cs)
    else
      match breakAtEq cs with
      | none => none
      | some (k, v) => some (c :: k, v)

/-- Modelled from the spec: one line of comment text parses as a marker when
it has the fixed `toolname:directive:key=value` form — a non-empty,
colon-separated path before the first `=` — yielding that whole path as the
marker key and the remainder as its value; any other line is ignored. -/
def parseMarkerLine (line : List Char) : Option (String × String) :=
  match breakAtEq line with
  | none => none
  | some (k, v) =>
    if k.isEmpty then none
    else if k.contains ':' then some (⟨k⟩, ⟨v⟩) else none

/-- Modelled from the spec: `comments.ParseMarkers` of the absent
`internal/comments` package — scans each line of the comment text for the
fixed marker syntax, accumulating the values recorded for a key in
encounter order; this is the list the Go code indexes as
`ParseMarkers(text)[k]`. -/
def ParseMarkers (text : String) (k : String) : List String :=
  ((splitOnChar '\n' text.data).filterMap parseMarkerLine).filterMap
    (fun kv => if kv.1 == k then some kv.2 else none)

/-- Modelled from the spec: `comments.Comments` resolves, for a declaration,
the comment attached directly to it (`For`) and the comment immediately
preceding it (`Before`) — two independent marker sources. -/
structure Comments where
  For : Object → String
  Before : Object → String

end comments

namespace Match

/-- `match.HasMarker` (from `internal/match/match.go`): true if the supplied
object has a comment marker `k` with the value `v`, reading first the
comment attached to the object and then the comment before it. -/
def HasMarker (c : comments.Comments) (k v : String) : Object' := fun o =>
  if (comments.ParseMarkers (c.For o) k).contains v then true
  else if (comments.ParseMarkers (c.Before o) k).contains v then true
  else false

/-- `match.DoesNotHaveMarker` (from `internal/match/match.go`): true if the
supplied object does not have a comment marker `k` with the value `v`. -/
def DoesNotHaveMarker (c : comments.Comments) (k v : String) : Object' := fun o =>
  !(HasMarker c k v o)

end Match

namespace method

/-- `method.New` (from `internal/method/method.go`): a function that adds
one method for the supplied object to the supplied file; modelled as the
generated syntax block it appends. -/
def New : Type := Object → String

/-- `method.Set` (from `internal/method/method.go`): a map of method names
to the `New` functions that produce them; the Go map is modelled as an
association list whose keys are the method names. -/
def Set : Type := List (String × New)

/-- `method.Filter` (from `internal/method/method.go`): decides whether a
method should be filtered out (true means skip) for the supplied object. -/
def Filter : Type := Object → String → Bool

/-- Lexicographic comparison of character lists by character code — the
ascending order `sort.Strings` establishes. -/
def charListLe : List Char → List Char → Bool
  | [], _ => true
  | _ :: _, [] => false
  | a :: as, b :: bs =>
    if a < b then true else if b < a then false else charListLe as bs

/-- Lexicographic comparison of strings, as a boolean. -/
def strLe (a b : String) : Bool := charListLe a.data b.data

/-- Lexicographic comparison of strings, as a relation. -/
def StrLe (a b : String) : Prop := strLe a b = true

instance : DecidableRel StrLe := fun a b => inferInstanceAs (Decidable (strLe a b = true))

/-- `method.Set.Write` (from `internal/method/method.go`): collects the
set's method names, sorts them, and for each name in sorted order skips it
when the filter returns true and otherwise invokes its generator on the
object, appending the produced method to the file. The Go code gathers the
names by iterating the map in unspecified order before sorting; the
association list's registration order plays that role here. -/
def Set.Write (s : Set) (f : List String) (o : Object) (mf : Filter) : List String :=
  (List.insertionSort StrLe (s.map Prod.fst)).foldl
    (fun acc n =>
      if mf o n then acc
      else
        match s.lookup n with
        | some g => acc ++ [g o]
        | none => acc) f

/-- The sequence of method names `Set.Write` invokes generators for: the
sorted names, minus the filtered ones. -/
def Set.writeOrder (s : Set) (o : Object) (mf : Filter) : List String :=
  (List.insertionSort StrLe (s.map Prod.fst)).filter (fun n => !mf o n)

/-- The loop body of `method.DefinedOutside`: walks the object's method
set, skipping methods whose name differs, and reports true as soon as a
method with the given name is defined in a file other than the given one. -/
def definedOutsideLoop (filename n : String) : List MethodInfo → Bool
  | [] => false
  | m :: rest =>
    if m.name != n then definedOutsideLoop filename n rest
    else if m.filename != filename then true
    else definedOutsideLoop filename n rest

/-- `method.DefinedOutside` (from `internal/method/method.go`): a filter
that is true iff the supplied object has a method with the supplied name
that is not defined in the supplied filename. The Go code walks
`types.NewMethodSet(types.NewPointer(o.Type()))` and resolves each
method's position through the `token.FileSet`; `Object.methods` holds
exactly that method set with positions already resolved to filenames. -/
def DefinedOutside (filename : String) : Filter := fun o n =>
  definedOutsideLoop filename n o.methods

/-- Models the construction of a `method.Set` by a Go composite literal
with constant keys, the only way the repository builds sets: the Go
compiler rejects a map literal containing two equal constant keys, so
construction succeeds exactly when the method names are pairwise distinct,
and never drops or overwrites an entry. -/
def Set.ofLiteral (l : List (String × New)) : Option Set :=
  if (l.map Prod.fst).Nodup then some l else none

end method

namespace nddgen

/-- The method names registered by `GenerateManaged`'s method set literal
(from `cmd/nddgen/genmethodsets.go`, five-category variant). -/
def managedMethodNames : List String :=
  ["SetActive", "GetActive", "SetConditions", "GetCondition",
   "GetTargetConfigReference", "SetTargetConfigReference",
   "SetDeletionPolicy", "GetDeletionPolicy", "InitializeTargetConditions",
   "DeleteTargetCondition", "GetTargetCondition", "SetTargetConditions"]

/-- The method names registered by `GenerateManagedList`'s literal. -/
def managedListMethodNames : List String := ["GetItems"]

/-- The method names registered by `GenerateTargetConfig`'s literal. -/
def targetConfigMethodNames : List String :=
  ["SetUsers", "GetUsers", "SetConditions", "GetCondition"]

/-- The method names registered by `GenerateTargetConfigUsage`'s literal. -/
def targetConfigUsageMethodNames : List String :=
  ["SetTargetConfigReference", "GetTargetConfigReference",
   "SetResourceReference", "GetResourceReference"]

/-- The method names registered by `GenerateTargetConfigUsageList`'s
literal. -/
def targetConfigUsageListMethodNames : List String := ["GetItems"]

end nddgen

/-- A method set registering three generators, in an order that is not the
lexicographic order of their names (spec §8's example). -/
def exMethodSet : method.Set :=
  [("Zeta", fun _ => "zeta-body"),
   ("Alpha", fun _ => "alpha-body"),
   ("Mid", fun _ => "mid-body")]

/-- `exMethodSet` with a different registration order. -/
def exMethodSetReordered : method.Set :=
  [("Mid", fun _ => "mid-body"),
   ("Zeta", fun _ => "zeta-body"),
   ("Alpha", fun _ => "alpha-body")]

/-- A declaration whose only `GetActive` method is defined in the
destination file itself — a previously generated copy. -/
def exObjWithSelfMethod : Object :=
  ⟨"Widget", [], [⟨"GetActive", "zz_generated.managed.go"⟩]⟩

/-- The value-level view of a declaration matched by ManagedList, as the
code generated by `method.NewManagedGetItems` operates on it: a receiver
with an `Items` slice of mutable slots. A Go pointer `&l.Items[i]` is
modelled as the index `i` into the original receiver's `Items`. -/
structure ManagedListVal (α : Type) where
  Items : List α

/-- Shallow embedding of the method body emitted by
`method.NewManagedGetItems` (from `internal/method/method.go`):
`items := make([]resource.Managed, len(l.Items))` allocates a fresh
sequence of zero values of the receiver's length, then
`for i := range l.Items { items[i] = &l.Items[i] }` assigns each slot the
pointer to the corresponding `Items` slot, and the sequence is returned. -/
def ManagedListVal.GetItems {α : Type} (l : ManagedListVal α) : List Nat :=
  (List.range l.Items.length).foldl (fun items i => items.set i i)
    (List.replicate l.Items.length 0)

/-- Mutation through a pointer returned by `GetItems`: writing `v` through
`&l.Items[p]` updates slot `p` of the original receiver's `Items`. -/
def ManagedListVal.storeThrough {α : Type} (l : ManagedListVal α) (p : Nat)
    (v : α) : ManagedListVal α :=
  ⟨l.Items.set p v⟩

/-- An example ManagedList receiver with three items. -/
def exManagedList : ManagedListVal String := ⟨["x0", "x1", "x2"]⟩

/-- Modelled from the spec: the value-level view of a Managed declaration's
`Spec`, holding the target-config reference next to the other spec-resident
fields the Managed generators touch (optional pointers modelled as
`Option`, the referenced value abstracted to its name). -/
structure ManagedSpecVal where
  TargetConfigReference : Option String
  DeletionPolicy : String
  Active : Bool

/-- Modelled from the spec: the value-level view of a Managed declaration's
`Status`. -/
structure ManagedStatusVal where
  Conditions : List String

/-- Modelled from the spec: the value-level view of a declaration matched
by Managed, as the generated reference accessors operate on it. -/
structure ManagedVal where
  Spec : ManagedSpecVal
  Status : ManagedStatusVal

/-- Modelled from the spec: the `GetTargetConfigReference` method the
Managed registry generates (its `method.NewGetTargetConfigReference` body
is absent from the provided sources); per the design table it reads
`Spec.TargetConfigReference`, matching the pattern of the present
reference generators such as `NewGetNetworkNodeReference`, which reads
`Spec.NetworkNodeReference`. -/
def ManagedVal.GetTargetConfigReference (m : ManagedVal) : Option String :=
  m.Spec.TargetConfigReference

/-- Modelled from the spec: the `SetTargetConfigReference` method the
Managed registry generates (its `method.NewSetTargetConfigReference` body
is absent from the provided sources); per the design table it assigns its
argument to `Spec.TargetConfigReference`, matching the pattern of the
present `NewSetNetworkNodeReference`, which assigns
`Spec.NetworkNodeReference`. -/
def ManagedVal.SetTargetConfigReference (m : ManagedVal) (r : Option String) :
    ManagedVal :=
  { m with Spec := { m.Spec with TargetConfigReference := r } }

namespace nddgen

/-- The five generation categories the driver runs, in source order. -/
inductive Category where
  | managed
  | managedList
  | targetConfig
  | targetConfigUsage
  | targetConfigUsageList
deriving DecidableEq

/-- Error context of the package loading loop (from the five-category
`genmethodsets.go`). -/
def errLoadingPackages : String := "error loading packages using pattern"

/-- Error context of `GenerateManaged`. -/
def errWriteManagedResourceMethod : String :=
  "cannot write managed resource method set for package"

/-- Error context of `GenerateManagedList`. -/
def errWriteManagedResourceListMethod : String :=
  "cannot write managed resource list method set for package"

/-- Error context of `GenerateTargetConfig`. -/
def errWriteTargetConfigMethod : String := "cannot write target config methods"

/-- Error context of `GenerateTargetConfigUsage`. -/
def errWriteTargetConfigUsageMethod : String :=
  "cannot write target config usage methods"

/-- Error context of `GenerateTargetConfigUsageList`. -/
def errWriteTargetConfigUsageListMethod : String :=
  "cannot write target config usage list methods"

/-- `errors.Wrap(err, msg)`: the message prefixes the wrapped error. -/
def wrap (msg e : String) : String := msg ++ ": " ++ e

/-- The error context each category's Generate function wraps a write
failure with. -/
def catErrMsg : Category → String
  | .managed => errWriteManagedResourceMethod
  | .managedList => errWriteManagedResourceListMethod
  | .targetConfig => errWriteTargetConfigMethod
  | .targetConfigUsage => errWriteTargetConfigUsageMethod
  | .targetConfigUsageList => errWriteTargetConfigUsageListMethod

/-- A loaded package as `RunE` consumes it: its import path, its load
errors, and the outcome of `generate.WriteMethods` for each category
(`none` for success, `some e` when the write fails with error `e`). -/
structure Pkg where
  PkgPath : String
  Errors : List String
  gen : Category → Option String

/-- The result of one category's Generate function for a package: the
write error wrapped with the category's error context, or `none` when the
write succeeded (`errors.Wrap` of a nil error is nil). -/
def generateCat (c : Category) (p : Pkg) : Option String :=
  (p.gen c).map (wrap (catErrMsg c))

/-- The wrapping `RunE` applies at its call sites:
`errors.Wrap(err, fmt.Sprintf("%s : %s", err, pkg.PkgPath))` for an error
already wrapped by the failing category's Generate function. -/
def wrapPkg (path e : String) : String := wrap (e ++ " : " ++ path) e

/-- The order `RunE` runs the five categories in. -/
def catOrder : List Category :=
  [.managed, .managedList, .targetConfig, .targetConfigUsage,
   .targetConfigUsageList]

/-- The category loop of `RunE` over one package, instrumented with the
trace of (package path, category) generation steps actually attempted:
each category in order, stopping at — and including — the first failing
one, whose error is returned wrapped with the package path. -/
def runCats (p : Pkg) : List Category → List (String × Category) × Option String
  | [] => ([], none)
  | c :: rest =>
    match generateCat c p with
    | some e => ([(p.PkgPath, c)], some (wrapPkg p.PkgPath e))
    | none =>
      let r := runCats p rest
      ((p.PkgPath, c) :: r.1, r.2)

/-- `genmethodsetCmd.RunE`'s package loop (five-category variant): each
package in order, first surfacing the package's first load error wrapped
with the load context and the pattern, otherwise generating the five
categories and stopping the whole run at the first failure; `none` means
the command returned nil. The trace records every generation step
attempted, in order. -/
def RunE (pat : String) : List Pkg → List (String × Category) × Option String
  | [] => ([], none)
  | p :: rest =>
    match p.Errors with
    | e :: _ => ([], some (wrap (errLoadingPackages ++ " : " ++ pat) e))
    | [] =>
      match runCats p catOrder with
      | (tr, some err) => (tr, some err)
      | (tr, none) =>
        let r := RunE pat rest
        (tr ++ r.1, r.2)

end nddgen

/-- A package whose Managed category write fails with error `boom` while
everything else succeeds. -/
def exFailPkg : nddgen.Pkg :=
  ⟨"example.com/apis/pkg", [],
    fun c => match c with
      | .managed => some "boom"
      | _ => none⟩

/-- `HasMarker` holds exactly when the value is among the parsed marker
values of either comment source. -/
theorem hasMarker_iff (c : comments.Comments) (k v : String) (o : Object) :
    Match.HasMarker c k v o = true ↔
      v ∈ comments.ParseMarkers (c.For o) k ∨
      v ∈ comments.ParseMarkers (c.Before o) k := by
  simp only [Match.HasMarker, List.contains, List.elem_iff]
  by_cases h₁ : v ∈ comments.ParseMarkers (c.For o) k <;>
    by_cases h₂ : v ∈ comments.ParseMarkers (c.Before o) k <;>
      simp [h₁, h₂]

/-- `DoesNotHaveMarker` holds exactly when the value is in neither comment
source's parsed marker values. -/
theorem doesNotHaveMarker_iff (c : comments.Comments) (k v : String) (o : Object) :
    Match.DoesNotHaveMarker c k v o = true ↔
      ¬(v ∈ comments.ParseMarkers (c.For o) k ∨
        v ∈ comments.ParseMarkers (c.Before o) k) := by
  rw [show Match.DoesNotHaveMarker c k v o = !(Match.HasMarker c k v o) from rfl,
    Bool.not_eq_true', ← Bool.not_eq_true, not_iff_not]
  exact hasMarker_iff c k v o

/-- `AllOf` of exactly two matchers is their conjunction. -/
theorem allOf_pair (m₁ m₂ : Match.Object') (o : Object) :
    Match.AllOf [m₁, m₂] o = (m₁ o && m₂ o) := by
  by_cases h : m₁ o = true <;> simp [Match.AllOf, h]

namespace nddgen

/-- `DisableMarker` (from `cmd/nddgen/genmethodsets.go`): the marker key
used to disable generation of methods for a type that otherwise appears to
be a managed resource. -/
def DisableMarker : String := "ndd:generate:methods"

/-- The effective matcher `GenerateManaged` passes to the writer (from
`cmd/nddgen/genmethodsets.go`): the Managed shape gated by the absence of
the disable marker with value "false". -/
def managedMatcher (c : comments.Comments) : Match.Object' :=
  Match.AllOf [Match.Managed, Match.DoesNotHaveMarker c DisableMarker "false"]

/-- The effective matcher used by `GenerateManagedList`. -/
def managedListMatcher (c : comments.Comments) : Match.Object' :=
  Match.AllOf [Match.ManagedList, Match.DoesNotHaveMarker c DisableMarker "false"]

/-- The effective matcher used by `GenerateTargetConfig`. -/
def targetConfigMatcher (c : comments.Comments) : Match.Object' :=
  Match.AllOf [Match.TargetConfig, Match.DoesNotHaveMarker c DisableMarker "false"]

/-- The effective matcher used by `GenerateTargetConfigUsage`. -/
def targetConfigUsageMatcher (c : comments.Comments) : Match.Object' :=
  Match.AllOf [Match.TargetConfigUsage, Match.DoesNotHaveMarker c DisableMarker "false"]

/-- The effective matcher used by `GenerateTargetConfigUsageList`. -/
def targetConfigUsageListMatcher (c : comments.Comments) : Match.Object' :=
  Match.AllOf [Match.TargetConfigUsageList, Match.DoesNotHaveMarker c DisableMarker "false"]

end nddgen

/-- A comment source whose attached comment carries the marker line
`generate:methods=false` — the disable key exactly as the design document
spells it, without the `ndd:` tool prefix the code requires. -/
def specKeyComments : comments.Comments :=
  ⟨fun _ => "generate:methods=false", fun _ => ""⟩

/-- A comment source whose attached comment carries the marker line
`ndd:generate:methods=false`, the disable marker as the code spells it. -/
def codeKeyComments : comments.Comments :=
  ⟨fun _ => "ndd:generate:methods=false", fun _ => ""⟩

/-- The synthetic declaration of spec §8: embedded TypeMeta, embedded
ObjectMeta, `Spec` containing an embedded resource spec and `Status`
containing an embedded resource status — exactly the Managed shape. -/
def exactManaged : Object :=
  ⟨"Widget",
   [.mk "TypeMeta" fields.TypeMetaType true false none,
    .mk "ObjectMeta" fields.ObjectMetaType true false none,
    .mk "Spec" "example.com/apis.WidgetSpec" false false
      (some [.mk "ResourceSpec" fields.ResourceSpecType true false none]),
    .mk "Status" "example.com/apis.WidgetStatus" false false
      (some [.mk "ResourceStatus" fields.ResourceStatusType true false none])],
   []⟩

/-- `exactManaged` with its embedded TypeMeta field removed. -/
def managedSansTypeMeta : Object :=
  { exactManaged with fields := exactManaged.fields.eraseIdx 0 }

/-- `exactManaged` with its embedded ObjectMeta field removed. -/
def managedSansObjectMeta : Object :=
  { exactManaged with fields := exactManaged.fields.eraseIdx 1 }

/-- `exactManaged` with its `Spec` field removed. -/
def managedSansSpec : Object :=
  { exactManaged with fields := exactManaged.fields.eraseIdx 2 }

/-- `exactManaged` with its `Status` field removed. -/
def managedSansStatus : Object :=
  { exactManaged with fields := exactManaged.fields.eraseIdx 3 }

/-- `exactManaged` with the embedding flag cleared on its TypeMeta field. -/
def managedUnembedTypeMeta : Object :=
  { exactManaged with fields :=
      exactManaged.fields.set 0 (.mk "TypeMeta" fields.TypeMetaType false false none) }

/-- `exactManaged` with the embedding flag cleared on its ObjectMeta field. -/
def managedUnembedObjectMeta : Object :=
  { exactManaged with fields :=
      exactManaged.fields.set 1 (.mk "ObjectMeta" fields.ObjectMetaType false false none) }

/-- `exactManaged` with the embedding flag cleared on the resource spec
nested inside its `Spec` field. -/
def managedUnembedResourceSpec : Object :=
  { exactManaged with fields :=
      exactManaged.fields.set 2 (.mk "Spec" "example.com/apis.WidgetSpec" false false
        (some [.mk "ResourceSpec" fields.ResourceSpecType false false none])) }

/-- `exactManaged` with the embedding flag cleared on the resource status
nested inside its `Status` field. -/
def managedUnembedResourceStatus : Object :=
  { exactManaged with fields :=
      exactManaged.fields.set 3 (.mk "Status" "example.com/apis.WidgetStatus" false false
        (some [.mk "ResourceStatus" fields.ResourceStatusType false false none])) }

/-- C4 counterexample: a declaration that structurally matches Managed and
carries the marker `generate:methods=false` — the key exactly as the claim
states it — in its attached comment is NOT excluded: the effective Managed
matcher still returns true, because the gate's key is the `ndd:`-prefixed
`DisableMarker`. -/
theorem C4_counterexample :
    comments.ParseMarkers "generate:methods=false" "generate:methods" = ["false"] ∧
    Match.Managed exactManaged = true ∧
    nddgen.managedMatcher specKeyComments exactManaged = true := by
  refine ⟨by decide, by decide, ?_⟩
  decide

/-- C4 (amended): every generation category's effective matcher is the
conjunction of its shape recognizer with `DoesNotHaveMarker` for the key
`ndd:generate:methods` (the `DisableMarker` constant) and value "false": a
declaration that structurally matches but carries that marker key with
value "false" in either of its two comment sources is excluded, and a
declaration without that key/value pair is not excluded by the gate. -/
theorem C4_disable_marker_gate :
    ∀ (c : comments.Comments) (o : Object),
      (nddgen.managedMatcher c o = true ↔
        (Match.Managed o = true ∧
          ¬("false" ∈ comments.ParseMarkers (c.For o) nddgen.DisableMarker ∨
            "false" ∈ comments.ParseMarkers (c.Before o) nddgen.DisableMarker))) ∧
      (nddgen.managedListMatcher c o = true ↔
        (Match.ManagedList o = true ∧
          ¬("false" ∈ comments.ParseMarkers (c.For o) nddgen.DisableMarker ∨
            "false" ∈ comments.ParseMarkers (c.Before o) nddgen.DisableMarker))) ∧
      (nddgen.targetConfigMatcher c o = true ↔
        (Match.TargetConfig o = true ∧
          ¬("false" ∈ comments.ParseMarkers (c.For o) nddgen.DisableMarker ∨
            "false" ∈ comments.ParseMarkers (c.Before o) nddgen.DisableMarker))) ∧
      (nddgen.targetConfigUsageMatcher c o = true ↔
        (Match.TargetConfigUsage o = true ∧
          ¬("false" ∈ comments.ParseMarkers (c.For o) nddgen.DisableMarker ∨
            "false" ∈ comments.ParseMarkers (c.Before o) nddgen.DisableMarker))) ∧
      (nddgen.targetConfigUsageListMatcher c o = true ↔
        (Match.TargetConfigUsageList o = true ∧
          ¬("false" ∈ comments.ParseMarkers (c.For o) nddgen.DisableMarker ∨
            "false" ∈ comments.ParseMarkers (c.Before o) nddgen.DisableMarker))) := by
  intro c o
  refine ⟨?_, ?_, ?_, ?_, ?_⟩ <;>
    simp only [nddgen.managedMatcher, nddgen.managedListMatcher,
      nddgen.targetConfigMatcher, nddgen.targetConfigUsageMatcher,
      nddgen.targetConfigUsageListMatcher, allOf_pair, Bool.and_eq_true,
      doesNotHaveMarker_iff]

/-- C5: `HasMarker` returns true exactly when the value appears among the
parsed marker values for the key in the comment attached to the object or
in the comment before it; a match in the attached comment decides the
result without consulting the preceding comment; and `DoesNotHaveMarker` is
the boolean negation of `HasMarker`. -/
theorem C5_HasMarker :
    (∀ (c : comments.Comments) (k v : String) (o : Object),
      Match.HasMarker c k v o = true ↔
        v ∈ comments.ParseMarkers (c.For o) k ∨
        v ∈ comments.ParseMarkers (c.Before o) k) ∧
    (∀ (Ffun Bfun Bfun' : Object → String) (k v : String) (o : Object),
      v ∈ comments.ParseMarkers (Ffun o) k →
        Match.HasMarker ⟨Ffun, Bfun⟩ k v o = true ∧
        Match.HasMarker ⟨Ffun, Bfun'⟩ k v o = true) ∧
    (∀ (c : comments.Comments) (k v : String) (o : Object),
      Match.DoesNotHaveMarker c k v o = !(Match.HasMarker c k v o)) := by
  refine ⟨hasMarker_iff, ?_, fun _ _ _ _ => rfl⟩
  intro Ffun Bfun Bfun' k v o hv
  exact ⟨(hasMarker_iff _ k v o).mpr (Or.inl hv), (hasMarker_iff _ k v o).mpr (Or.inl hv)⟩

/-- C5 witness: with the attached comment carrying the disable marker, both
choices of preceding comment give a positive `HasMarker`. -/
theorem C5_HasMarker_witness :
    "false" ∈ comments.ParseMarkers "ndd:generate:methods=false" "ndd:generate:methods" ∧
    Match.HasMarker ⟨fun _ => "ndd:generate:methods=false", fun _ => ""⟩
      "ndd:generate:methods" "false" exactManaged = true ∧
    Match.HasMarker ⟨fun _ => "ndd:generate:methods=false", fun _ => "x"⟩
      "ndd:generate:methods" "false" exactManaged = true := by
  have h := C5_HasMarker.2.1 (fun _ => "ndd:generate:methods=false")
    (fun _ => "") (fun _ => "x") "ndd:generate:methods" "false" exactManaged (by decide)
  exact ⟨by decide, h.1, h.2⟩

/-- C1: for every declaration, the `Managed` matcher holds exactly when the
declaration has an embedded TypeMeta-shaped field, an embedded
ObjectMeta-shaped field, a `Spec` field whose nested fields include an
embedded resource-spec-shaped field and a `Status` field whose nested
fields include an embedded resource-status-shaped field; and on the
synthetic declaration that exactly satisfies this shape, removing any one
of the four required fields, or clearing any one of the four required
embedding flags, makes the matcher return false. -/
theorem C1_Managed_characterization :
    (∀ o : Object, Match.Managed o = true ↔
      ((∃ f ∈ o.fields, f.typeName = fields.TypeMetaType ∧ f.embedded = true) ∧
       (∃ f ∈ o.fields, f.typeName = fields.ObjectMetaType ∧ f.embedded = true) ∧
       (∃ f ∈ o.fields, f.name = fields.NameSpec ∧
         ∃ g ∈ fields.nestedFields f,
           g.typeName = fields.ResourceSpecType ∧ g.embedded = true) ∧
       (∃ f ∈ o.fields, f.name = fields.NameStatus ∧
         ∃ g ∈ fields.nestedFields f,
           g.typeName = fields.ResourceStatusType ∧ g.embedded = true))) ∧
    Match.Managed exactManaged = true ∧
    Match.Managed managedSansTypeMeta = false ∧
    Match.Managed managedSansObjectMeta = false ∧
    Match.Managed managedSansSpec = false ∧
    Match.Managed managedSansStatus = false ∧
    Match.Managed managedUnembedTypeMeta = false ∧
    Match.Managed managedUnembedObjectMeta = false ∧
    Match.Managed managedUnembedResourceSpec = false ∧
    Match.Managed managedUnembedResourceStatus = false := by
  refine ⟨fun o => ?_, by decide, by decide, by decide, by decide, by decide,
    by decide, by decide, by decide, by decide⟩
  simp only [Match.Managed, fields.Has, List.all_cons, List.all_nil,
    Bool.and_eq_true, Bool.and_true, List.any_eq_true, fields.Matcher.and,
    fields.IsTypeMeta, fields.IsObjectMeta, fields.IsSpec, fields.IsStatus,
    fields.TypeIs, fields.Named, fields.IsEmbedded, fields.HasFieldThat,
    fields.IsResourceSpec, fields.IsResourceStatus, beq_iff_eq]

/-- C10: `AllOf` of no matchers accepts every object and `AnyOf` of no
matchers rejects every object; `AllOf` is the conjunction and `AnyOf` the
disjunction of the supplied matchers; and both short-circuit: as soon as a
matcher settles the result, the matchers after it are irrelevant. -/
theorem C10_AllOf_AnyOf :
    (∀ o : Object, Match.AllOf [] o = true) ∧
    (∀ o : Object, Match.AnyOf [] o = false) ∧
    (∀ (ms : List Match.Object') (o : Object),
      Match.AllOf ms o = true ↔ ∀ m ∈ ms, m o = true) ∧
    (∀ (ms : List Match.Object') (o : Object),
      Match.AnyOf ms o = true ↔ ∃ m ∈ ms, m o = true) ∧
    (∀ (l₁ l₂ : List Match.Object') (m : Match.Object') (o : Object),
      m o = false → Match.AllOf (l₁ ++ m :: l₂) o = false) ∧
    (∀ (l₁ l₂ : List Match.Object') (m : Match.Object') (o : Object),
      m o = true → Match.AnyOf (l₁ ++ m :: l₂) o = true) := by
  have hall : ∀ (ms : List Match.Object') (o : Object),
      Match.AllOf ms o = true ↔ ∀ m ∈ ms, m o = true := by
    intro ms o
    induction ms with
    | nil => simp [Match.AllOf]
    | cons m rest ih =>
      by_cases h : m o = true <;> simp [Match.AllOf, h, ih]
  have hany : ∀ (ms : List Match.Object') (o : Object),
      Match.AnyOf ms o = true ↔ ∃ m ∈ ms, m o = true := by
    intro ms o
    induction ms with
    | nil => simp [Match.AnyOf]
    | cons m rest ih =>
      by_cases h : m o = true <;> simp [Match.AnyOf, h, ih]
  refine ⟨fun _ => rfl, fun _ => rfl, hall, hany, ?_, ?_⟩
  · intro l₁ l₂ m o hm
    rw [← Bool.not_eq_true]
    intro hcontra
    exact absurd ((hall _ o).mp hcontra m (by simp)) (by simp [hm])
  · intro l₁ l₂ m o hm
    exact (hany _ o).mpr ⟨m, by simp, hm⟩

/-- C10 witness: concrete instances of the short-circuit statements. -/
theorem C10_AllOf_AnyOf_witness :
    Match.AllOf [fun _ => false, fun _ => true] exactManaged = false ∧
    Match.AnyOf [fun _ => true, fun _ => false] exactManaged = true :=
  ⟨C10_AllOf_AnyOf.2.2.2.2.1 [] [fun _ => true] (fun _ => false) exactManaged rfl,
   C10_AllOf_AnyOf.2.2.2.2.2 [] [fun _ => false] (fun _ => true) exactManaged rfl⟩

/-- Totality of the lexicographic comparison of character lists. -/
theorem charListLe_total : ∀ as bs : List Char,
    method.charListLe as bs = true ∨ method.charListLe bs as = true := by
  intro as
  induction as with
  | nil => intro bs; exact Or.inl rfl
  | cons a as ih =>
    intro bs
    cases bs with
    | nil => exact Or.inr rfl
    | cons b bs =>
      rcases lt_trichotomy a b with h | h | h
      · left; simp [method.charListLe, h]
      · subst h
        rcases ih bs with h' | h'
        · left; simp [method.charListLe, lt_irrefl, h']
        · right; simp [method.charListLe, lt_irrefl, h']
      · right; simp [method.charListLe, h]

/-- Transitivity of the lexicographic comparison of character lists. -/
theorem charListLe_trans : ∀ as bs cs : List Char,
    method.charListLe as bs = true → method.charListLe bs cs = true →
      method.charListLe as cs = true := by
  intro as
  induction as with
  | nil => intro bs cs _ _; rfl
  | cons a as ih =>
    intro bs cs h₁ h₂
    cases bs with
    | nil => simp [method.charListLe] at h₁
    | cons b bs =>
      cases cs with
      | nil => simp [method.charListLe] at h₂
      | cons c cs =>
        rcases lt_trichotomy a b with hab | hab | hab
        · rcases lt_trichotomy b c with hbc | hbc | hbc
          · simp [method.charListLe, hab.trans hbc]
          · subst hbc; simp [method.charListLe, hab]
          · simp [method.charListLe, asymm hbc, hbc] at h₂
        · subst hab
          rcases lt_trichotomy a c with hac | hac | hac
          · simp [method.charListLe, hac]
          · subst hac
            simp only [method.charListLe, lt_irrefl, if_false] at h₁ h₂ ⊢
            exact ih bs cs h₁ h₂
          · simp [method.charListLe, asymm hac, hac] at h₂
        · simp [method.charListLe, asymm hab, hab] at h₁

/-- Antisymmetry of the lexicographic comparison of character lists. -/
theorem charListLe_antisymm : ∀ as bs : List Char,
    method.charListLe as bs = true → method.charListLe bs as = true →
      as = bs := by
  intro as
  induction as with
  | nil =>
    intro bs _ h₂
    cases bs with
    | nil => rfl
    | cons b bs => simp [method.charListLe] at h₂
  | cons a as ih =>
    intro bs h₁ h₂
    cases bs with
    | nil => simp [method.charListLe] at h₁
    | cons b bs =>
      rcases lt_trichotomy a b with hab | hab | hab
      · simp [method.charListLe, asymm hab, hab] at h₂
      · subst hab
        simp only [method.charListLe, lt_irrefl, if_false] at h₁ h₂
        rw [ih bs h₁ h₂]
      · simp [method.charListLe, asymm hab, hab] at h₁

/-- Strings with equal character data are equal. -/
theorem strData_inj {a b : String} (h : a.data = b.data) : a = b := by
  cases a; cases b; exact congrArg String.mk (by simpa using h)

instance : IsTotal String method.StrLe :=
  ⟨fun a b => charListLe_total a.data b.data⟩

instance : IsTrans String method.StrLe :=
  ⟨fun a b c h₁ h₂ => charListLe_trans a.data b.data c.data h₁ h₂⟩

instance : IsAntisymm String method.StrLe :=
  ⟨fun a b h₁ h₂ => strData_inj (charListLe_antisymm a.data b.data h₁ h₂)⟩

/-- The fold inside `Set.Write` appends, for each name in order, the
generator output of the unfiltered names. -/
theorem write_foldl (s : method.Set) (o : Object) (mf : method.Filter) :
    ∀ (ns : List String) (f : List String),
      (ns.foldl (fun acc n =>
        if mf o n then acc
        else
          match List.lookup n s with
          | some g => acc ++ [g o]
          | none => acc) f) =
      f ++ ns.filterMap (fun n =>
        if mf o n then none else (List.lookup n s).map (fun g => g o)) := by
  intro ns
  induction ns with
  | nil => intro f; simp
  | cons n ns ih =>
    intro f
    by_cases h : mf o n = true
    · simp [h, ih]
    · cases hl : List.lookup n s with
      | none => simp [h, hl, ih]
      | some g => simp [h, hl, ih]

/-- Dropping the filtered names first and then mapping the generators is
the same as mapping the filter-guarded generators. -/
theorem filterMap_guard (o : Object) (mf : method.Filter)
    (q : String → Option String) :
    ∀ ns : List String,
      ns.filterMap (fun n => if mf o n then none else q n) =
        (ns.filter (fun n => !mf o n)).filterMap q := by
  intro ns
  induction ns with
  | nil => rfl
  | cons n ns ih =>
    by_cases h : mf o n = true
    · simp [h, ih]
    · cases hq : q n <;> simp [h, hq, ih]

/-- Association-list lookup is invariant under permutation when the keys
are distinct. -/
theorem lookup_perm {s s' : method.Set} (hp : List.Perm s s')
    (hnd : (List.map Prod.fst s).Nodup) :
    ∀ n, List.lookup n s = List.lookup n s' := by
  induction hp with
  | nil => intro n; rfl
  | cons x _ ih =>
    intro n
    obtain ⟨k, g⟩ := x
    by_cases h : n == k
    · simp [List.lookup, h]
    · simp only [List.lookup, h]
      exact ih (by simpa using hnd.of_cons) n
  | swap x y l =>
    intro n
    obtain ⟨k₁, g₁⟩ := x
    obtain ⟨k₂, g₂⟩ := y
    have hne : k₂ ≠ k₁ := by
      simp only [List.map_cons, List.nodup_cons, List.mem_cons] at hnd
      exact fun h => hnd.1 (Or.inl h)
    by_cases h₁ : (n == k₁) = true <;> by_cases h₂ : (n == k₂) = true
    · exact absurd ((eq_of_beq h₂).symm.trans (eq_of_beq h₁)) hne
    · simp [List.lookup, h₁, h₂]
    · simp [List.lookup, h₁, h₂]
    · simp [List.lookup, h₁, h₂]
  | trans h₁ _ ih₁ ih₂ =>
    intro n
    exact (ih₁ hnd n).trans (ih₂ ((h₁.map Prod.fst).nodup_iff.mp hnd) n)

/-- C2: for a method set with distinct names, `Set.Write` appends exactly
the outputs of the unfiltered generators, taken in lexicographically
ascending order of method name: the invocation order is sorted, contains
each registered unfiltered name exactly once and no filtered name, and the
written file is invariant under reordering the set's registration. -/
theorem C2_Set_Write_sorted (s : method.Set) (f : List String) (o : Object)
    (mf : method.Filter) (hnd : (List.map Prod.fst s).Nodup) :
    (method.Set.Write s f o mf =
      f ++ (method.Set.writeOrder s o mf).filterMap
        (fun n => (List.lookup n s).map (fun g => g o))) ∧
    List.Sorted method.StrLe (method.Set.writeOrder s o mf) ∧
    (method.Set.writeOrder s o mf).Nodup ∧
    (∀ n, n ∈ method.Set.writeOrder s o mf ↔
      n ∈ List.map Prod.fst s ∧ mf o n = false) ∧
    (∀ s' : method.Set, List.Perm s s' →
      method.Set.Write s f o mf = method.Set.Write s' f o mf) := by
  refine ⟨?_, ?_, ?_, ?_, ?_⟩
  · rw [method.Set.Write, write_foldl, filterMap_guard, method.Set.writeOrder]
  · exact (List.sorted_insertionSort method.StrLe _).filter _
  · exact ((List.perm_insertionSort method.StrLe _).nodup_iff.mpr hnd).filter _
  · intro n
    simp [method.Set.writeOrder, List.mem_filter,
      (List.perm_insertionSort method.StrLe _).mem_iff, Bool.not_eq_true']
  · intro s' hp
    have hkeys : List.Perm (List.map Prod.fst s) (List.map Prod.fst s') :=
      hp.map Prod.fst
    have hsort : List.insertionSort method.StrLe (List.map Prod.fst s) =
        List.insertionSort method.StrLe (List.map Prod.fst s') :=
      List.eq_of_perm_of_sorted
        ((List.perm_insertionSort method.StrLe _).trans
          (hkeys.trans (List.perm_insertionSort method.StrLe _).symm))
        (List.sorted_insertionSort method.StrLe _)
        (List.sorted_insertionSort method.StrLe _)
    have hlook := lookup_perm hp hnd
    rw [method.Set.Write, method.Set.Write, hsort]
    congr 1
    funext acc n
    rw [hlook n]

/-- C2 witness: the spec §8 example — methods registered as Zeta, Alpha,
Mid are always emitted as Alpha, Mid, Zeta, for either registration
order. -/
theorem C2_Set_Write_sorted_witness :
    (List.map Prod.fst exMethodSet).Nodup ∧
    method.Set.Write exMethodSet [] exactManaged (fun _ _ => false) =
      ["alpha-body", "mid-body", "zeta-body"] ∧
    method.Set.Write exMethodSetReordered [] exactManaged (fun _ _ => false) =
      ["alpha-body", "mid-body", "zeta-body"] := by
  have h := C2_Set_Write_sorted exMethodSet [] exactManaged
    (fun _ _ => false) (by decide)
  have hperm : List.Perm exMethodSet exMethodSetReordered :=
    (List.Perm.cons _ (List.Perm.swap _ _ _)).trans (List.Perm.swap _ _ _)
  refine ⟨by decide, ?_, ?_⟩
  · rw [h.1]; rfl
  · rw [← h.2.2.2.2 exMethodSetReordered hperm, h.1]; rfl

/-- The `DefinedOutside` loop finds a method with the given name defined
outside the given file iff one is present in the list. -/
theorem definedOutsideLoop_iff (d n : String) :
    ∀ ms : List MethodInfo,
      method.definedOutsideLoop d n ms = true ↔
        ∃ m ∈ ms, m.name = n ∧ m.filename ≠ d := by
  intro ms
  induction ms with
  | nil => simp [method.definedOutsideLoop]
  | cons m rest ih =>
    by_cases h₁ : m.name = n
    · by_cases h₂ : m.filename = d
      · simp [method.definedOutsideLoop, h₁, h₂, ih, bne]
      · simp [method.definedOutsideLoop, h₁, h₂, bne]
    · simp [method.definedOutsideLoop, h₁, ih, bne]

/-- C3: the collision filter `DefinedOutside(fs, d)` holds for an object
and a method name exactly when the method set of the pointer to the
object's type has a method of that name whose defining position's filename
differs from `d`; in particular, when every definition of the name lies in
`d` itself, the filter returns false and the method is regenerated. -/
theorem C3_DefinedOutside_characterization :
    (∀ (d : String) (o : Object) (n : String),
      method.DefinedOutside d o n = true ↔
        ∃ m ∈ o.methods, m.name = n ∧ m.filename ≠ d) ∧
    (∀ (d : String) (o : Object) (n : String),
      (∀ m ∈ o.methods, m.name = n → m.filename = d) →
        method.DefinedOutside d o n = false) := by
  have hiff : ∀ (d : String) (o : Object) (n : String),
      method.DefinedOutside d o n = true ↔
        ∃ m ∈ o.methods, m.name = n ∧ m.filename ≠ d :=
    fun d o n => definedOutsideLoop_iff d n o.methods
  refine ⟨hiff, fun d o n h => ?_⟩
  rw [← Bool.not_eq_true]
  intro hc
  obtain ⟨m, hm, hname, hfile⟩ := (hiff d o n).mp hc
  exact hfile (h m hm hname)

/-- C3 witness: a `GetActive` defined only in the destination file itself
is regenerated, while the same method defined in another file is a
collision. -/
theorem C3_DefinedOutside_witness :
    method.DefinedOutside "zz_generated.managed.go" exObjWithSelfMethod
      "GetActive" = false ∧
    method.DefinedOutside "other.go" exObjWithSelfMethod "GetActive" = true :=
  ⟨C3_DefinedOutside_characterization.2 "zz_generated.managed.go"
      exObjWithSelfMethod "GetActive" (by decide),
    by decide⟩

/-- C9: registering two generators under the same method name makes the
set's construction fail at configuration time — the literal is rejected,
never resolved by last-registration-wins — while a successful construction
carries every registration unchanged with pairwise distinct names; and the
five method-set literals the driver actually configures all have pairwise
distinct method names. -/
theorem C9_method_name_uniqueness :
    (∀ (n : String) (g₁ g₂ : method.New) (l₁ l₂ l₃ : List (String × method.New)),
      method.Set.ofLiteral (l₁ ++ (n, g₁) :: l₂ ++ (n, g₂) :: l₃) = none) ∧
    (∀ (l : List (String × method.New)) (s : method.Set),
      method.Set.ofLiteral l = some s →
        s = l ∧ (List.map Prod.fst l).Nodup) ∧
    nddgen.managedMethodNames.Nodup ∧
    nddgen.managedListMethodNames.Nodup ∧
    nddgen.targetConfigMethodNames.Nodup ∧
    nddgen.targetConfigUsageMethodNames.Nodup ∧
    nddgen.targetConfigUsageListMethodNames.Nodup := by
  refine ⟨?_, ?_, by decide, by decide, by decide, by decide, by decide⟩
  · intro n g₁ g₂ l₁ l₂ l₃
    rw [method.Set.ofLiteral, if_neg]
    intro hnd
    have h : (List.map Prod.fst (l₁ ++ (n, g₁) :: l₂ ++ (n, g₂) :: l₃)) =
        List.map Prod.fst l₁ ++ n ::
          (List.map Prod.fst l₂ ++ n :: List.map Prod.fst l₃) := by
      simp
    rw [h] at hnd
    have h₂ := hnd.of_append_right
    rw [List.nodup_cons] at h₂
    exact h₂.1 (by simp)
  · intro l s h
    rw [method.Set.ofLiteral] at h
    by_cases hnd : (List.map Prod.fst l).Nodup
    · rw [if_pos hnd] at h
      exact ⟨(Option.some.injEq _ _ ▸ h).symm ▸ rfl, hnd⟩
    · rw [if_neg hnd] at h
      cases h

/-- C9 witness: a duplicate registration of `GetItems` is rejected, and a
set that does construct keeps its single registration with distinct
names. -/
theorem C9_method_name_uniqueness_witness :
    method.Set.ofLiteral
      [("GetItems", (fun _ => "items-body" : method.New)),
       ("GetItems", fun _ => "items-body-two")] = none ∧
    ([("GetItems", (fun _ => "items-body" : method.New))] =
        [("GetItems", (fun _ => "items-body" : method.New))] ∧
      (List.map Prod.fst
        [("GetItems", (fun _ => "items-body" : method.New))]).Nodup) :=
  ⟨C9_method_name_uniqueness.1 "GetItems" (fun _ => "items-body")
      (fun _ => "items-body-two") [] [] [],
    C9_method_name_uniqueness.2.1
      [("GetItems", fun _ => "items-body")]
      [("GetItems", fun _ => "items-body")] rfl⟩

/-- Setting a list's slot at the length of a prefix updates the head of
the suffix. -/
theorem set_append_left_length {α : Type} :
    ∀ (l₁ l₂ : List α) (a : α),
      (l₁ ++ l₂).set l₁.length a = l₁ ++ l₂.set 0 a := by
  intro l₁
  induction l₁ with
  | nil => intro l₂ a; rfl
  | cons x xs ih => intro l₂ a; simp [List.set, ih]

/-- `set_append_left_length`, stated for any index known to equal the
prefix length. -/
theorem set_append_len {α : Type} (l₁ l₂ : List α) (a : α) (n : Nat)
    (hn : n = l₁.length) : (l₁ ++ l₂).set n a = l₁ ++ l₂.set 0 a := by
  subst hn; exact set_append_left_length l₁ l₂ a

/-- The `make`-then-fill loop of the generated `GetItems` produces the
identity pointer sequence over the filled prefix. -/
theorem foldl_set_range :
    ∀ (k : Nat) (init : List Nat), k ≤ init.length →
      (List.range k).foldl (fun items i => items.set i i) init =
        List.range k ++ init.drop k := by
  intro k
  induction k with
  | zero => intro init _; simp
  | succ k ih =>
    intro init hk
    rw [List.range_succ, List.foldl_append, ih init (Nat.le_of_succ_le hk)]
    simp only [List.foldl_cons, List.foldl_nil]
    have hk' : k < init.length := hk
    rw [set_append_len (List.range k) _ _ k (List.length_range k).symm,
      List.drop_eq_getElem_cons hk']
    simp [List.range_succ, List.append_assoc, List.set]

/-- The generated `GetItems` returns exactly the pointers to slots
`0, 1, …, len(Items)-1`, in order. -/
theorem getItems_eq_range {α : Type} (l : ManagedListVal α) :
    l.GetItems = List.range l.Items.length := by
  rw [ManagedListVal.GetItems, foldl_set_range _ _ (by simp)]
  simp

/-- C6: for every matched list declaration, the generated `GetItems`
returns a sequence whose length equals the receiver's `Items` length and
whose i-th element is the pointer into the i-th slot of `Items` (not a
copy); storing a value through that pointer mutates `Items[i]` of the
original receiver, preserving the slice's length and every other slot. -/
theorem C6_GetItems_references :
    (∀ (α : Type) (l : ManagedListVal α),
      l.GetItems.length = l.Items.length) ∧
    (∀ (α : Type) (l : ManagedListVal α) (i : Nat), i < l.Items.length →
      l.GetItems[i]? = some i) ∧
    (∀ (α : Type) (l : ManagedListVal α) (i : Nat) (v : α),
      i < l.Items.length →
        (l.storeThrough i v).Items[i]? = some v ∧
        (l.storeThrough i v).Items.length = l.Items.length ∧
        ∀ j, j ≠ i → (l.storeThrough i v).Items[j]? = l.Items[j]?) := by
  refine ⟨?_, ?_, ?_⟩
  · intro α l; rw [getItems_eq_range]; simp
  · intro α l i hi; rw [getItems_eq_range]; exact List.getElem?_range hi
  · intro α l i v hi
    refine ⟨?_, by simp [ManagedListVal.storeThrough], ?_⟩
    · simp [ManagedListVal.storeThrough, List.getElem?_set, hi]
    · intro j hj
      simp [ManagedListVal.storeThrough, List.getElem?_set, Ne.symm hj]

/-- C6 witness: for a three-item list, `GetItems` has length three, its
second element is the pointer to slot 1, and writing through that pointer
replaces `Items[1]` while leaving `Items[0]` untouched. -/
theorem C6_GetItems_references_witness :
    exManagedList.GetItems.length = 3 ∧
    exManagedList.GetItems[1]? = some 1 ∧
    (exManagedList.storeThrough 1 "mut").Items[1]? = some "mut" ∧
    (exManagedList.storeThrough 1 "mut").Items[0]? = some "x0" :=
  ⟨(C6_GetItems_references.1 String exManagedList).trans rfl,
   C6_GetItems_references.2.1 String exManagedList 1 (by decide),
   (C6_GetItems_references.2.2 String exManagedList 1 "mut" (by decide)).1,
   ((C6_GetItems_references.2.2 String exManagedList 1 "mut" (by decide)).2.2
      0 (by decide)).trans rfl⟩

/-- C7: the generated `GetTargetConfigReference` reads the field path
`Spec.TargetConfigReference` of the receiver, and the generated
`SetTargetConfigReference` assigns its argument to
`Spec.TargetConfigReference`, leaving the spec's other fields and the
whole `Status` unchanged. -/
theorem C7_TargetConfigReference_path :
    (∀ m : ManagedVal,
      m.GetTargetConfigReference = m.Spec.TargetConfigReference) ∧
    (∀ (m : ManagedVal) (r : Option String),
      (m.SetTargetConfigReference r).Spec.TargetConfigReference = r ∧
      (m.SetTargetConfigReference r).Spec.DeletionPolicy =
        m.Spec.DeletionPolicy ∧
      (m.SetTargetConfigReference r).Spec.Active = m.Spec.Active ∧
      (m.SetTargetConfigReference r).Status = m.Status) :=
  ⟨fun _ => rfl, fun _ _ => ⟨rfl, rfl, rfl, rfl⟩⟩

/-- A package whose categories all generate successfully runs through the
whole category order. -/
theorem runCats_ok (p : nddgen.Pkg) :
    ∀ cs : List nddgen.Category, (∀ c ∈ cs, p.gen c = none) →
      nddgen.runCats p cs = (cs.map (fun c => (p.PkgPath, c)), none) := by
  intro cs
  induction cs with
  | nil => intro _; rfl
  | cons c rest ih =>
    intro h
    have hc : p.gen c = none := h c (by simp)
    simp only [nddgen.runCats, nddgen.generateCat, hc, Option.map_none']
    rw [ih (fun c' hc' => h c' (by simp [hc']))]
    simp

/-- The category loop stops at — and includes — the first failing
category, returning its wrapped error. -/
theorem runCats_fail (p : nddgen.Pkg) (c : nddgen.Category) (e : String) :
    ∀ pre post : List nddgen.Category,
      (∀ c' ∈ pre, p.gen c' = none) → p.gen c = some e →
        nddgen.runCats p (pre ++ c :: post) =
          (pre.map (fun c' => (p.PkgPath, c')) ++ [(p.PkgPath, c)],
           some (nddgen.wrapPkg p.PkgPath (nddgen.wrap (nddgen.catErrMsg c) e))) := by
  intro pre
  induction pre with
  | nil =>
    intro post _ he
    simp [nddgen.runCats, nddgen.generateCat, he]
  | cons c₀ rest ih =>
    intro post h he
    have h₀ : p.gen c₀ = none := h c₀ (by simp)
    simp only [List.cons_append, nddgen.runCats, nddgen.generateCat, h₀,
      Option.map_none', List.append_eq]
    rw [ih post (fun c' hc' => h c' (by simp [hc'])) he]
    simp

/-- Packages that load and generate cleanly contribute their full traces
and leave the run's outcome to the remaining packages. -/
theorem RunE_clean_head (pat : String) :
    ∀ pre rest : List nddgen.Pkg,
      (∀ q ∈ pre, q.Errors = [] ∧ ∀ c, q.gen c = none) →
        nddgen.RunE pat (pre ++ rest) =
          ((pre.map (fun q => nddgen.catOrder.map (fun c => (q.PkgPath, c)))).flatten ++
              (nddgen.RunE pat rest).1,
            (nddgen.RunE pat rest).2) := by
  intro pre
  induction pre with
  | nil => intro rest _; simp
  | cons q pre ih =>
    intro rest h
    obtain ⟨hqe, hqg⟩ := h q (by simp)
    show nddgen.RunE pat (q :: (pre ++ rest)) = _
    rw [nddgen.RunE, hqe, runCats_ok q nddgen.catOrder (fun c _ => hqg c),
      ih rest (fun q' hq' => h q' (by simp [hq']))]
    simp [List.append_assoc]

/-- C8: when every earlier package loads and generates cleanly, the
current package loads cleanly and its categories before `c` generate
cleanly, but category `c` fails with error `e`, then the command returns
immediately with that error wrapped in the category's error context and
the package identifier; the trace of attempted generation steps is exactly
the earlier packages' full category runs followed by the current package's
categories up to and including `c` — each step once, nothing after the
failure, no retry, no swallowed error. -/
theorem C8_fail_fast (pat : String) (pre post : List nddgen.Pkg)
    (p : nddgen.Pkg) (catsPre catsPost : List nddgen.Category)
    (c : nddgen.Category) (e : String)
    (hpre : ∀ q ∈ pre, q.Errors = [] ∧ ∀ c', q.gen c' = none)
    (hperr : p.Errors = [])
    (horder : nddgen.catOrder = catsPre ++ c :: catsPost)
    (hok : ∀ c' ∈ catsPre, p.gen c' = none)
    (he : p.gen c = some e) :
    nddgen.RunE pat (pre ++ p :: post) =
      ((pre.map (fun q => nddgen.catOrder.map (fun c' => (q.PkgPath, c')))).flatten ++
          (catsPre.map (fun c' => (p.PkgPath, c')) ++ [(p.PkgPath, c)]),
        some (nddgen.wrapPkg p.PkgPath (nddgen.wrap (nddgen.catErrMsg c) e))) := by
  rw [RunE_clean_head pat pre (p :: post) hpre]
  rw [show nddgen.RunE pat (p :: post) =
      match p.Errors with
      | e :: _ => ([], some (nddgen.wrap (nddgen.errLoadingPackages ++ " : " ++ pat) e))
      | [] =>
        match nddgen.runCats p nddgen.catOrder with
        | (tr, some err) => (tr, some err)
        | (tr, none) =>
          let r := nddgen.RunE pat post
          (tr ++ r.1, r.2) from rfl]
  rw [hperr, horder, runCats_fail p c e catsPre catsPost hok he]

/-- C8 witness: a single package whose Managed write fails with `boom`
yields exactly one attempted step and the doubly wrapped error. -/
theorem C8_fail_fast_witness :
    nddgen.RunE "./..." [exFailPkg] =
      ([("example.com/apis/pkg", nddgen.Category.managed)],
        some ("cannot write managed resource method set for package: boom : example.com/apis/pkg: cannot write managed resource method set for package: boom")) := by
  have h := C8_fail_fast "./..." [] [] exFailPkg []
    [nddgen.Category.managedList, nddgen.Category.targetConfig,
     nddgen.Category.targetConfigUsage, nddgen.Category.targetConfigUsageList]
    nddgen.Category.managed "boom" (by simp) rfl rfl (by simp) rfl
  simpa using h

end NddTools
